import Mathlib

/-!
The fixed-arena allocator of `memory.c`.

A shallow embedding of `heap_init`, `alloc` and `mfree`.

* Pointers are mathematical integers (byte addresses); `Layout.heap` is the address of
  `heap[0]`, so `heap[i]` is the byte at address `heap + i`.
* `int` is the target's 32-bit two's-complement type (the layout comment in `alloc` draws
  `M2`, the `int len`, as four bytes).  The two computations of `alloc` that can leave the
  `int` range, the padding of `data_size` and the `size_t` sum stored into `block_size`,
  wrap modulo `2^32`.
* The linked list hanging from `mblk_head` is a Lean list of nodes in link order; every node
  remembers the address it is stored at, so that the stores through `node->next` that the
  C code performs are stores into the byte memory as well.  A call of `alloc` whose stores
  overwrite the `next` field of a live node has no result: the walk to the tail of the
  list reads that field afterwards and leaves the list.
* `Display` only prints; it has no counterpart here.
* The `do ... while` search of `alloc` takes a fuel: the number of passes it may make.
-/

namespace Malloc

/-! ## Machine integers -/

/-- Least value of the 32-bit `int`. -/
def INT_MIN : Int := -2147483648

/-- Greatest value of the 32-bit `int`. -/
def INT_MAX : Int := 2147483647

/-- Conversion of an integer value to `unsigned int` (`size_t`): reduction modulo `2^32`. -/
def toUnsigned (x : Int) : Int := x % 4294967296

/-- Conversion of an integer value to `int`: two's-complement wrap into
`[-2^31, 2^31)`. -/
def toInt (x : Int) : Int := (x + 2147483648) % 4294967296 - 2147483648

/-! ## Data model -/

/-- Size of `MBLK` (`memory.h`): the pointer `addr` and the `int len`, drawn as
`M1 M1 M1 M1 M2 M2 M2 M2` in the comment of `alloc`. -/
def sizeofMBLK : Int := 8

/-- Size of `ListNode` (`list.h`): the pointers `next` and `data`, drawn as
`L1 L1 L1 L1 L2 L2 L2 L2` in the comment of `alloc`. -/
def sizeofListNode : Int := 8

/-- What the build fixes and the source file does not: the address of the array `heap`
and the `int` constant `HEAP_SIZE` of `memory.h`. -/
structure Layout where
  heap : Int
  HEAP_SIZE : Int
  HEAP_SIZE_int : HEAP_SIZE ≤ 2147483647

/-- The block descriptor `MBLK`: `addr` is the first byte handed to the user, `len` the
total number of bytes of the block, descriptor and list node included. -/
structure MBLK where
  addr : Int
  len : Int
deriving DecidableEq

/-- A `ListNode` of the block list: `loc` is the address the node is stored at, `data`
the `MBLK` its `data` pointer leads to.  The `next` link is the order of the list. -/
structure ListNode where
  loc : Int
  data : MBLK
deriving DecidableEq

/-- The global state: the byte memory (which holds the array `heap`) and the list
`mblk_head`. -/
structure State where
  bytes : Int → Nat
  mblk_head : List ListNode

/-- The Directory: the block descriptors of the list, in list order. -/
def State.dir (s : State) : List MBLK := s.mblk_head.map (fun n => n.data)

/-! ## Stores -/

/-- The store `*p = v` of one byte. -/
def store (bytes : Int → Nat) (p : Int) (v : Nat) : Int → Nat :=
  fun q => if q = p then v else bytes q

/-- The store of a 4-byte pointer or `int` at `p` (little-endian, as on the PIC32). -/
def storeWord (bytes : Int → Nat) (p : Int) (w : Int) : Int → Nat :=
  let u := (toUnsigned w).toNat
  store (store (store (store bytes p (u % 256)) (p + 1) (u / 256 % 256))
    (p + 2) (u / 65536 % 256)) (p + 3) (u / 16777216 % 256)

/-- The loop `for (i = 0; i < n; ++i) addr[i] = v;` after `n` rounds. -/
def fill (addr : Int) (v : Nat) : Nat → (Int → Nat) → (Int → Nat)
  | 0, bytes => bytes
  | i + 1, bytes => store (fill addr v i bytes) (addr + i) v

/-! ## heap_init -/

/-- The function `heap_init`: empties the list and writes `0xFE` to every byte of `heap`. -/
def heap_init (L : Layout) (s : State) : State :=
  { bytes := fill L.heap 0xFE L.HEAP_SIZE.toNat s.bytes
    mblk_head := [] }

/-! ## alloc -/

/-- Lines 61-62: `if (data_size % 4 != 0) data_size += 4 - (data_size % 4);` with C's
remainder, which truncates toward zero. -/
def pad_data_size (data_size : Int) : Int :=
  if data_size.tmod 4 ≠ 0 then toInt (data_size + (4 - data_size.tmod 4)) else data_size

/-- Line 65: `int block_size = data_size + sizeof(MBLK) + sizeof(ListNode);` for the
padded `data_size`.  The operands `sizeof` are `size_t`, so the sum is unsigned and is
converted to `int` on the assignment. -/
def block_size (data_size : Int) : Int :=
  toInt (toUnsigned (toUnsigned data_size + sizeofMBLK) + sizeofListNode)

/-- The collision test of lines 91-92. -/
def address_collides (addr block_size : Int) (mblk : MBLK) : Bool :=
  (decide (addr ≥ mblk.addr) && decide (addr < mblk.addr + mblk.len))
  || (decide (addr + block_size - 1 ≥ mblk.addr)
      && decide (addr + block_size - 1 < mblk.addr + mblk.len))

/-- How one pass of the inner `while` loop (lines 85-106) ends. -/
inductive Pass where
  /-- The list was walked to its end with `address_collides == FALSE`. -/
  | clear
  /-- A collision moved `addr`; the `do ... while` goes round again. -/
  | moved (addr : Int)
  /-- Line 101: `return 0` ("Could not find contiguous space in heap"). -/
  | full
deriving DecidableEq

/-- One pass of the inner `while` loop over the nodes from `travel` on. -/
def scan (L : Layout) (block_size addr : Int) : List ListNode → Pass
  | [] => Pass.clear
  | travel :: next =>
    if address_collides addr block_size travel.data then
      if travel.data.addr + travel.data.len + block_size > L.heap + L.HEAP_SIZE then
        Pass.full
      else
        Pass.moved (travel.data.addr + travel.data.len)
    else
      scan L block_size addr next

/-- The `do ... while (address_collides == TRUE)` loop of lines 75-109, making at most
`fuel` passes: `none` when the fuel runs out, `some none` for `return 0`, `some (some a)`
when a pass at `a` ends without a collision. -/
def search (L : Layout) (head : List ListNode) (block_size : Int) :
    Nat → Int → Option (Option Int)
  | 0, _ => none
  | fuel + 1, addr =>
    match scan L block_size addr head with
    | Pass.clear => some (some addr)
    | Pass.full => some none
    | Pass.moved addr1 => search L head block_size fuel addr1

/-- Lines 114-135 of `alloc`: fill the user region, write the descriptor and the node
behind it, and hang the node at the tail of the list; the walk to the tail reads the
links of the list as they were before the stores (see `link_clobbered`). -/
def register (s : State) (addr data_size block_size : Int) : State :=
  let bytes1 := fill addr 0xAA data_size.toNat s.bytes
  let mblk := addr + data_size
  let bytes2 := storeWord (storeWord bytes1 mblk addr) (mblk + 4) block_size
  let node := addr + data_size + sizeofMBLK
  let bytes3 := storeWord (storeWord bytes2 (node + 4) mblk) node 0
  let entry : ListNode := { loc := node, data := { addr := addr, len := block_size } }
  match s.mblk_head.getLast? with
  | none => { bytes := bytes3, mblk_head := [entry] }
  | some travel =>
    { bytes := storeWord bytes3 travel.loc node, mblk_head := s.mblk_head ++ [entry] }

/-- The walk of line 133, `for (travel = mblk_head; travel->next != 0; ...)`, reads the
`next` field of every node of the list after the stores of lines 114-126 have written the
bytes `[addr, addr + data_size + sizeof(MBLK) + sizeof(ListNode))`.  A node whose `next`
field, the 4 bytes at `loc`, has a byte among those has been overwritten: the walk then
follows what the stores left there instead of the link.  Such a call has no result in
this embedding. -/
def link_clobbered (head : List ListNode) (addr data_size : Int) : Bool :=
  head.any (fun travel =>
    decide (addr < travel.loc + 4) &&
      decide (travel.loc < addr + data_size + sizeofMBLK + sizeofListNode))

/-- The function `alloc`.  The result is `none` when the call yields no result: the
search runs out of fuel, or the walk of line 133 follows a link that the stores of the
call have overwritten (undefined behaviour in C, a fault at a wild pointer on the
machine).  Otherwise it is the returned pointer (`none` for the null pointer) and the
state after the call. -/
def alloc (L : Layout) (fuel : Nat) (s : State) (data_size : Int) :
    Option (Option Int × State) :=
  let data_size := pad_data_size data_size
  let block_size := block_size data_size
  if data_size ≤ 0 ∨ block_size > L.HEAP_SIZE then
    some (none, s)
  else
    match search L s.mblk_head block_size fuel L.heap with
    | none => none
    | some none => some (none, s)
    | some (some addr) =>
      if link_clobbered s.mblk_head addr data_size then none
      else some (some addr, register s addr data_size block_size)

/-! ## mfree -/

/-- The `while` loop of `mfree` (lines 149-170): `seen` holds the nodes already passed
(its last one is `trail`), the last argument the nodes from `travel` on. -/
def mfree_loop (s : State) (ptr : Int) : List ListNode → List ListNode → State
  | _, [] => s
  | seen, travel :: next =>
    if ptr = travel.data.addr then
      let bytes1 :=
        match seen.getLast? with
        | none => s.bytes
        | some trail =>
          storeWord s.bytes trail.loc
            (match next with
             | [] => 0
             | n :: _ => n.loc)
      { bytes := fill travel.data.addr 0xEE travel.data.len.toNat bytes1
        mblk_head := seen ++ next }
    else
      mfree_loop s ptr (seen ++ [travel]) next

/-- The function `mfree`. -/
def mfree (s : State) (ptr : Int) : State :=
  mfree_loop s ptr [] s.mblk_head

/-! ## Executions -/

/-- The bytes a call of `alloc` writes when it returns `r` for the request `data_size`
(user region, descriptor and node) all belong to the array `heap`. -/
def writes_in_heap (L : Layout) (data_size : Int) (r : Option Int) : Prop :=
  ∀ a, r = some a →
    L.heap ≤ a ∧
      a + pad_data_size data_size + sizeofMBLK + sizeofListNode ≤ L.heap + L.HEAP_SIZE

/-- Executions from `heap_init()`: `Run L ret s` says that `s` is the state after
`heap_init()` and a finite sequence of calls `alloc(data_size)`, with any `int` argument,
and `mfree(ptr)`, with any pointer, each of which gave a result; `ret` lists the non-null
pointers `alloc` returned on the way, latest first. -/
inductive Run (L : Layout) : List Int → State → Prop
  | init (s : State) : Run L [] (heap_init L s)
  | alloc_step {ret : List Int} {s s' : State} (fuel : Nat) (data_size : Int)
      (r : Option Int) :
      Run L ret s → INT_MIN ≤ data_size → data_size ≤ INT_MAX →
      alloc L fuel s data_size = some (r, s') →
      Run L (r.toList ++ ret) s'
  | mfree_step {ret : List Int} {s : State} (ptr : Int) :
      Run L ret s → Run L ret (mfree s ptr)

/-- The states reachable from `heap_init()`. -/
def Reachable (L : Layout) (s : State) : Prop := ∃ ret, Run L ret s

/-! ## Notions of the specification -/

/-- The half-open ranges `[a, b)` and `[c, d)` have a byte in common. -/
@[reducible] def ranges_overlap (a b c d : Int) : Prop := a < b ∧ c < d ∧ a < d ∧ c < b

/-- Two blocks overlap: their ranges `[addr, addr + len)` have a byte in common. -/
@[reducible] def MBLK.overlaps (x y : MBLK) : Prop :=
  ranges_overlap x.addr (x.addr + x.len) y.addr (y.addr + y.len)

/-- No two live blocks of a Directory overlap. -/
@[reducible] def no_overlap (dir : List MBLK) : Prop :=
  dir.Pairwise (fun x y => ¬ x.overlaps y)

/-- The specification's rounding: the least multiple of 4 that is at least `n`. -/
def round_up_4 (n : Int) : Int := 4 * ((n + 3) / 4)

/-- The specification's block size for a request:
`round_up_4(size) + sizeof(MBLK) + sizeof(ListNode)`. -/
def spec_block_size (size : Int) : Int := round_up_4 size + sizeofMBLK + sizeofListNode

/-- The address `a` is usable for a block of `n` bytes: `[a, a + n)` shares no byte with
any live block. -/
@[reducible] def free_at (dir : List MBLK) (a n : Int) : Prop :=
  ∀ m ∈ dir, ¬ ranges_overlap a (a + n) m.addr (m.addr + m.len)

/-! ## Concrete instances -/

/-- A build with `HEAP_SIZE = 64` and the array at address `0x1000`. -/
def L64 : Layout := { heap := 4096, HEAP_SIZE := 64, HEAP_SIZE_int := by decide }

/-- A build with `HEAP_SIZE = 128` and the array at address `0x1000`. -/
def L128 : Layout := { heap := 4096, HEAP_SIZE := 128, HEAP_SIZE_int := by decide }

/-- The state of a freshly started program: zeroed memory, null `mblk_head`. -/
def s0 : State := { bytes := fun _ => 0, mblk_head := [] }

/-- The state after `heap_init()` in the build `L64`. -/
def fresh64 : State := heap_init L64 s0

/-- The state after `heap_init(); alloc(4);` in the build `L64`: one block at `heap`. -/
def held1 : State := register fresh64 4096 4 20

/-- The state after `heap_init(); alloc(4); alloc(4);` in the build `L64`. -/
def held2 : State := register held1 4116 4 20

/-- The state after `heap_init(); alloc(4); alloc(4); mfree(heap);` in the build `L64`:
the only live block is `[heap + 20, heap + 40)`. -/
def hole64 : State := mfree held2 4096

/-- The state after `heap_init(); alloc(4); alloc(4); mfree(heap);` in the build `L128`. -/
def hole128 : State :=
  mfree (register (register (heap_init L128 s0) 4096 4 20) 4116 4 20) 4096

/-- A state, not reachable, with two live blocks at the same address `heap`: the first of
4 bytes, the second of 24 bytes. -/
def twins : State :=
  { bytes := fun _ => 0
    mblk_head := [⟨4108, ⟨4096, 4⟩⟩, ⟨4112, ⟨4096, 24⟩⟩] }

/-! ## Arithmetic of the size computations -/

/-- The four inequalities of `ranges_overlap` say exactly that some byte lies in both
half-open ranges. -/
theorem ranges_overlap_iff (a b c d : Int) :
    ranges_overlap a b c d ↔ ∃ x, (a ≤ x ∧ x < b) ∧ (c ≤ x ∧ x < d) := by
  unfold ranges_overlap
  constructor
  · intro h
    rcases le_total a c with hac | hca
    · exact ⟨c, by omega⟩
    · exact ⟨a, by omega⟩
  · rintro ⟨x, h1, h2⟩
    omega

/-- The value `round_up_4 n` is the least multiple of 4 that is at least `n`. -/
theorem round_up_4_spec (n : Int) :
    n ≤ round_up_4 n ∧ round_up_4 n % 4 = 0 ∧
      ∀ k : Int, n ≤ k → k % 4 = 0 → round_up_4 n ≤ k := by
  unfold round_up_4
  refine ⟨by omega, by omega, ?_⟩
  intro k h1 h2
  omega

/-- Without overflow `block_size` is the padded size plus the 16 bytes of metadata. -/
theorem block_size_eq (d : Int) (h1 : 0 ≤ d) (h2 : d + 16 ≤ 2147483647) :
    block_size d = d + 16 := by
  unfold block_size toInt toUnsigned sizeofMBLK sizeofListNode
  omega

/-- On positive requests that stay in the `int` range the padding of lines 61-62 is
the specification's rounding. -/
theorem pad_data_size_pos (n : Int) (h1 : 0 < n) (h2 : n + 3 ≤ 2147483647) :
    pad_data_size n = round_up_4 n := by
  unfold pad_data_size round_up_4 toInt
  rw [Int.tmod_eq_emod (le_of_lt h1) (by norm_num)]
  split_ifs with h <;> omega

/-- The padded size of an `int` request is an `int`. -/
theorem pad_data_size_range (n : Int) (h1 : INT_MIN ≤ n) (h2 : n ≤ INT_MAX) :
    -2147483648 ≤ pad_data_size n ∧ pad_data_size n ≤ 2147483647 := by
  unfold INT_MIN at h1
  unfold INT_MAX at h2
  unfold pad_data_size toInt
  split_ifs with h <;> omega

/-- For a positive padded size `block_size` is either exact or, wrapped, far below
zero. -/
theorem block_size_cases (d : Int) (h1 : 0 < d) (h2 : d ≤ 2147483647) :
    block_size d = d + 16 ∨ block_size d ≤ -2147483633 := by
  unfold block_size toInt toUnsigned sizeofMBLK sizeofListNode
  omega

/-- The wrapped `block_size` never exceeds the exact sum. -/
theorem block_size_le (d : Int) (h1 : 0 < d) : block_size d ≤ d + 16 := by
  unfold block_size toInt toUnsigned sizeofMBLK sizeofListNode
  omega

/-- The `block_size` of a multiple of 4 is a multiple of 4, wrapped or not. -/
theorem block_size_mod4 (d : Int) (h : d % 4 = 0) : block_size d % 4 = 0 := by
  unfold block_size toInt toUnsigned sizeofMBLK sizeofListNode
  omega

/-- The padded size is a multiple of 4, whatever the request. -/
theorem pad_data_size_mod4 (n : Int) : pad_data_size n % 4 = 0 := by
  unfold pad_data_size toInt
  rw [Int.tmod_def]
  generalize n.tdiv 4 = t
  split_ifs with h <;> omega

/-- A positive `int` request that passes the test `data_size <= 0` was padded to the
specification's rounding. -/
theorem pad_data_size_of_pos (n : Int) (h1 : 0 < n) (h2 : n ≤ INT_MAX)
    (h3 : 0 < pad_data_size n) : pad_data_size n = round_up_4 n := by
  unfold INT_MAX at h2
  revert h3
  unfold pad_data_size round_up_4 toInt
  rw [Int.tmod_eq_emod (le_of_lt h1) (by norm_num)]
  split_ifs with h <;> intro h3 <;> omega

/-! ## Stores -/

/-- Closed form of the fill loop. -/
theorem fill_apply (addr : Int) (v : Nat) (n : Nat) (bytes : Int → Nat) (q : Int) :
    fill addr v n bytes q = if addr ≤ q ∧ q < addr + n then v else bytes q := by
  induction n with
  | zero =>
    have : ¬ (addr ≤ q ∧ q < addr + ((0 : Nat) : Int)) := by omega
    rw [if_neg this]; rfl
  | succ k ih =>
    simp only [fill, store, ih]
    by_cases h1 : q = addr + k
    · rw [if_pos h1, if_pos (by omega)]
    · rw [if_neg h1]
      by_cases h2 : addr ≤ q ∧ q < addr + k
      · rw [if_pos h2, if_pos (by omega)]
      · rw [if_neg h2, if_neg (by omega)]

/-- A word store changes only the four bytes from `p` on. -/
theorem storeWord_frame (bytes : Int → Nat) (p w q : Int) (h : q < p ∨ p + 4 ≤ q) :
    storeWord bytes p w q = bytes q := by
  simp only [storeWord, store]
  rw [if_neg (by omega), if_neg (by omega), if_neg (by omega), if_neg (by omega)]

/-! ## The search -/

/-- The collision test as a proposition. -/
theorem address_collides_iff (addr bs : Int) (m : MBLK) :
    address_collides addr bs m = true ↔
      (m.addr ≤ addr ∧ addr < m.addr + m.len) ∨
        (m.addr ≤ addr + bs - 1 ∧ addr + bs - 1 < m.addr + m.len) := by
  simp [address_collides]

/-- A pass that ends clear met no node that collides. -/
theorem scan_clear (L : Layout) (bs addr : Int) (l : List ListNode)
    (h : scan L bs addr l = Pass.clear) :
    ∀ n ∈ l, address_collides addr bs n.data = false := by
  induction l with
  | nil => simp
  | cons t next ih =>
    simp only [scan] at h
    split_ifs at h with hc
    intro n hn
    rcases List.mem_cons.mp hn with rfl | hn
    · simpa using hc
    · exact ih h n hn

/-- A pass that moves `addr` moves it up, to a place where the block still fits below
the end of the array. -/
theorem scan_moved_bounds (L : Layout) (bs addr a1 : Int) (l : List ListNode)
    (hbs : 1 ≤ bs) (h : scan L bs addr l = Pass.moved a1) :
    addr < a1 ∧ a1 + bs ≤ L.heap + L.HEAP_SIZE := by
  induction l with
  | nil => simp [scan] at h
  | cons t next ih =>
    simp only [scan] at h
    split_ifs at h with hc hfull
    · rw [address_collides_iff] at hc
      simp only [Pass.moved.injEq] at h
      omega
    · exact ih h

/-- The address the search returns is one at which a whole pass ends clear. -/
theorem search_clear (L : Layout) (head : List ListNode) (bs : Int) (fuel : Nat)
    (addr a : Int) (h : search L head bs fuel addr = some (some a)) :
    scan L bs a head = Pass.clear := by
  induction fuel generalizing addr with
  | zero => simp [search] at h
  | succ k ih =>
    simp only [search] at h
    split at h
    · rename_i hs
      simp only [Option.some.injEq] at h
      rw [← h]; exact hs
    · simp at h
    · exact ih _ h

/-- The search never returns an address below its start, and any address other than
the start leaves room for the block below the end of the array. -/
theorem search_bounds (L : Layout) (head : List ListNode) (bs : Int) (hbs : 1 ≤ bs)
    (fuel : Nat) (addr a : Int) (h : search L head bs fuel addr = some (some a)) :
    addr ≤ a ∧ (a = addr ∨ a + bs ≤ L.heap + L.HEAP_SIZE) := by
  induction fuel generalizing addr with
  | zero => simp [search] at h
  | succ k ih =>
    simp only [search] at h
    split at h
    · simp only [Option.some.injEq] at h
      exact ⟨by omega, Or.inl h.symm⟩
    · simp at h
    · rename_i a1 hs
      have h1 := scan_moved_bounds L bs addr a1 head hbs hs
      have h2 := ih a1 h
      omega

/-- Below a usable address `A` a pass either ends clear or moves `addr` up without
passing `A`; it never gives up. -/
theorem scan_below_free (L : Layout) (bs addr A : Int) (l : List ListNode)
    (hbs : 1 ≤ bs) (hle : addr ≤ A) (hfit : A + bs ≤ L.heap + L.HEAP_SIZE)
    (hfree : ∀ n ∈ l, ¬ ranges_overlap A (A + bs) n.data.addr (n.data.addr + n.data.len)) :
    scan L bs addr l = Pass.clear ∨
      ∃ addr1, scan L bs addr l = Pass.moved addr1 ∧ addr < addr1 ∧ addr1 ≤ A := by
  induction l with
  | nil => left; rfl
  | cons t next ih =>
    simp only [scan]
    have ht := hfree t (List.mem_cons_self _ _)
    unfold ranges_overlap at ht
    by_cases hc : address_collides addr bs t.data = true
    · rw [if_pos hc]
      rw [address_collides_iff] at hc
      have h1 : ¬ (t.data.addr + t.data.len + bs > L.heap + L.HEAP_SIZE) := by omega
      rw [if_neg h1]
      right
      exact ⟨_, rfl, by omega, by omega⟩
    · rw [if_neg hc]
      exact ih (fun n hn => hfree n (List.mem_cons_of_mem _ hn))

/-- Started at or below a usable address `A`, with more fuel than the distance to `A`,
the search returns an address. -/
theorem search_below_free (L : Layout) (head : List ListNode) (bs A : Int)
    (hbs : 1 ≤ bs) (hfit : A + bs ≤ L.heap + L.HEAP_SIZE)
    (hfree : ∀ n ∈ head,
      ¬ ranges_overlap A (A + bs) n.data.addr (n.data.addr + n.data.len))
    (fuel : Nat) (addr : Int) (hle : addr ≤ A) (hfuel : A - addr < fuel) :
    ∃ a, search L head bs fuel addr = some (some a) ∧ addr ≤ a ∧ a ≤ A := by
  induction fuel generalizing addr with
  | zero => omega
  | succ k ih =>
    simp only [search]
    rcases scan_below_free L bs addr A head hbs hle hfit hfree with h | ⟨addr1, h, h1, h2⟩
    · rw [h]; exact ⟨addr, rfl, le_refl _, hle⟩
    · rw [h]
      obtain ⟨a, ha, ha1, ha2⟩ := ih addr1 h2 (by omega)
      exact ⟨a, ha, by omega, ha2⟩

/-- Against blocks of positive length the search returns no address that a live block
already has. -/
theorem search_no_live_addr (L : Layout) (head : List ListNode) (bs : Int) (fuel : Nat)
    (addr a : Int) (h : search L head bs fuel addr = some (some a))
    (hlen : ∀ n ∈ head, 0 < n.data.len) :
    ∀ n ∈ head, n.data.addr ≠ a := by
  intro n hn he
  have hc := scan_clear L bs a head (search_clear L head bs fuel addr a h) n hn
  have hpos := hlen n hn
  have : address_collides a bs n.data = true := by
    rw [address_collides_iff]; left; omega
  rw [hc] at this
  exact Bool.false_ne_true this

/-! ## The list after alloc and mfree -/

/-- The ways a call of `alloc` ends with a result. -/
theorem alloc_some (L : Layout) (fuel : Nat) (s s' : State) (n : Int) (r : Option Int)
    (h : alloc L fuel s n = some (r, s')) :
    (r = none ∧ s' = s) ∨
      ∃ a, r = some a ∧ 0 < pad_data_size n ∧
        block_size (pad_data_size n) ≤ L.HEAP_SIZE ∧
        search L s.mblk_head (block_size (pad_data_size n)) fuel L.heap = some (some a) ∧
        s' = register s a (pad_data_size n) (block_size (pad_data_size n)) := by
  unfold alloc at h
  simp only at h
  by_cases hg : pad_data_size n ≤ 0 ∨ block_size (pad_data_size n) > L.HEAP_SIZE
  · rw [if_pos hg] at h
    simp only [Option.some.injEq, Prod.mk.injEq] at h
    exact Or.inl ⟨h.1.symm, h.2.symm⟩
  · rw [if_neg hg] at h
    split at h
    · simp at h
    · simp only [Option.some.injEq, Prod.mk.injEq] at h
      exact Or.inl ⟨h.1.symm, h.2.symm⟩
    · rename_i a hs
      split_ifs at h with hc
      simp only [Option.some.injEq, Prod.mk.injEq] at h
      right
      exact ⟨a, h.1.symm, by omega, by omega, hs, h.2.symm⟩

/-- No link is overwritten exactly when no node has a byte of its `next` field among the
bytes written. -/
theorem link_clobbered_false (head : List ListNode) (addr ds : Int) :
    link_clobbered head addr ds = false ↔
      ∀ t ∈ head, ¬ (addr < t.loc + 4 ∧ t.loc < addr + ds + sizeofMBLK + sizeofListNode) := by
  simp [link_clobbered, List.any_eq_false]

/-- A call of `alloc` that returns an address overwrote no link of the list. -/
theorem alloc_links_intact (L : Layout) (fuel : Nat) (s s' : State) (n a : Int)
    (h : alloc L fuel s n = some (some a, s')) :
    ∀ t ∈ s.mblk_head,
      ¬ (a < t.loc + 4 ∧ t.loc < a + pad_data_size n + sizeofMBLK + sizeofListNode) := by
  rw [← link_clobbered_false]
  unfold alloc at h
  simp only at h
  by_cases hg : pad_data_size n ≤ 0 ∨ block_size (pad_data_size n) > L.HEAP_SIZE
  · rw [if_pos hg] at h
    simp at h
  · rw [if_neg hg] at h
    split at h
    · simp at h
    · simp at h
    · rename_i b hs
      split_ifs at h with hc
      simp only [Option.some.injEq, Prod.mk.injEq] at h
      rw [← h.1]
      simpa using hc

/-- The new node goes to the tail of the list. -/
theorem register_mblk_head (s : State) (addr ds bs : Int) :
    (register s addr ds bs).mblk_head =
      s.mblk_head ++
        [{ loc := addr + ds + sizeofMBLK, data := { addr := addr, len := bs } }] := by
  unfold register
  cases h : s.mblk_head.getLast? with
  | none =>
    have : s.mblk_head = [] := List.getLast?_eq_none_iff.mp h
    simp [this]
  | some t => simp

/-- The loop of `mfree` changes nothing when no node from `travel` on has the pointer. -/
theorem mfree_loop_no_match (s : State) (ptr : Int) (l seen : List ListNode)
    (h : ∀ n ∈ l, n.data.addr ≠ ptr) : mfree_loop s ptr seen l = s := by
  induction l generalizing seen with
  | nil => rfl
  | cons t next ih =>
    simp only [mfree_loop]
    have ht : ¬ ptr = t.data.addr := fun e => h t (List.mem_cons_self _ _) e.symm
    rw [if_neg ht]
    exact ih _ (fun n hn => h n (List.mem_cons_of_mem _ hn))

/-- The loop of `mfree` unlinks the first node that has the pointer. -/
theorem mfree_loop_mblk_head (s : State) (ptr : Int) (l seen : List ListNode)
    (h : seen ++ l = s.mblk_head) :
    (mfree_loop s ptr seen l).mblk_head =
      seen ++ l.eraseP (fun n => decide (ptr = n.data.addr)) := by
  induction l generalizing seen with
  | nil => simpa [mfree_loop] using h.symm
  | cons t next ih =>
    simp only [mfree_loop]
    by_cases ht : ptr = t.data.addr
    · rw [if_pos ht]
      simp [List.eraseP_cons, ht]
    · rw [if_neg ht]
      rw [ih (seen ++ [t]) (by simpa using h)]
      simp [List.eraseP_cons, ht]

/-- The list after `mfree`: the first node that has the pointer is gone. -/
theorem mfree_mblk_head (s : State) (ptr : Int) :
    (mfree s ptr).mblk_head =
      s.mblk_head.eraseP (fun n => decide (ptr = n.data.addr)) := by
  unfold mfree
  rw [mfree_loop_mblk_head s ptr s.mblk_head [] rfl]
  rfl

/-- When the block addresses of a list are pairwise distinct, unlinking the first node
with a given address leaves no node with that address. -/
theorem eraseP_nodup_addr (ptr : Int) (l : List ListNode)
    (h : (l.map (fun n => n.data.addr)).Nodup) :
    ∀ n ∈ l.eraseP (fun n => decide (ptr = n.data.addr)), n.data.addr ≠ ptr := by
  induction l with
  | nil => simp
  | cons t next ih =>
    rw [List.map_cons, List.nodup_cons] at h
    by_cases ht : ptr = t.data.addr
    · simp only [List.eraseP_cons, ht, decide_True, cond_true]
      intro n hn he
      apply h.1
      rw [← he]
      exact List.mem_map_of_mem (fun n => n.data.addr) hn
    · simp only [List.eraseP_cons, ht, decide_False, cond_false]
      intro n hn
      rcases List.mem_cons.mp hn with rfl | hn
      · exact fun e => ht e.symm
      · exact ih h.2 n hn

/-! ## Invariants of executions -/

/-- A successful call whose block size did not overflow writes inside the array. -/
theorem alloc_block_in_heap (L : Layout) (fuel : Nat) (s s' : State) (size a : Int)
    (h : alloc L fuel s size = some (some a, s'))
    (hno : pad_data_size size + sizeofMBLK + sizeofListNode ≤ INT_MAX) :
    writes_in_heap L size (some a) := by
  intro b hb
  rw [← Option.some.inj hb]
  rcases alloc_some L fuel s s' size (some a) h with ⟨hr, -⟩ | ⟨c, hr, hpos, hle, hsearch, -⟩
  · cases hr
  · cases hr
    unfold sizeofMBLK sizeofListNode INT_MAX at *
    have hbs := block_size_eq (pad_data_size size) (by omega) (by omega)
    have := search_bounds L s.mblk_head _ (by omega) fuel L.heap a hsearch
    omega

/-- When every live block of positive length ends with its own node, the block a call of
`alloc` returns and records shares no byte with a live block: a live block that the
collision test misses lies inside the new block, and then the stores of the call
overwrite its node. -/
theorem alloc_block_clear (L : Layout) (fuel : Nat) (s s' : State) (size a : Int)
    (hlay : ∀ n ∈ s.mblk_head,
      n.data.len ≤ 0 ∨ (n.data.addr ≤ n.loc ∧ n.loc + 8 = n.data.addr + n.data.len))
    (hmin : INT_MIN ≤ size) (hmax : size ≤ INT_MAX)
    (h : alloc L fuel s size = some (some a, s')) :
    ∀ n ∈ s.mblk_head,
      ¬ ranges_overlap n.data.addr (n.data.addr + n.data.len) a
        (a + block_size (pad_data_size size)) := by
  intro n hn
  have hint := alloc_links_intact L fuel s s' size a h n hn
  rcases alloc_some L fuel s s' size (some a) h with ⟨hr, -⟩ | ⟨b, hr, hpos, -, hsearch, -⟩
  · cases hr
  · cases hr
    have hc := scan_clear L _ a s.mblk_head (search_clear L s.mblk_head _ fuel L.heap a hsearch)
      n hn
    have hcn : ¬ ((n.data.addr ≤ a ∧ a < n.data.addr + n.data.len) ∨
        (n.data.addr ≤ a + block_size (pad_data_size size) - 1 ∧
          a + block_size (pad_data_size size) - 1 < n.data.addr + n.data.len)) := by
      rw [← address_collides_iff, hc]
      simp
    have hrange := pad_data_size_range size hmin hmax
    have hcases := block_size_cases (pad_data_size size) hpos hrange.2
    have hl := hlay n hn
    unfold sizeofMBLK sizeofListNode at hint
    unfold ranges_overlap
    omega

/-- In every state of an execution each live block of positive length ends with its own
node: `loc + sizeof(ListNode) = addr + len`. -/
theorem run_layout (L : Layout) (ret : List Int) (s : State) (h : Run L ret s) :
    ∀ n ∈ s.mblk_head,
      n.data.len ≤ 0 ∨ (n.data.addr ≤ n.loc ∧ n.loc + 8 = n.data.addr + n.data.len) := by
  induction h with
  | init s => simp [heap_init]
  | alloc_step fuel data_size r hrun hmin hmax halloc ih =>
    rename_i ret s s'
    rcases alloc_some L fuel s s' data_size r halloc with
      ⟨hr, hs⟩ | ⟨a, hr, hpos, hle, hsearch, hs⟩
    · subst hs; exact ih
    · have hrange := pad_data_size_range data_size hmin hmax
      have hcases := block_size_cases (pad_data_size data_size) hpos hrange.2
      rw [hs, register_mblk_head]
      intro n hn
      rcases List.mem_append.mp hn with hn | hn
      · exact ih n hn
      · simp only [List.mem_singleton] at hn
        subst hn
        unfold sizeofMBLK
        simp only
        omega
  | mfree_step ptr hrun ih =>
    rename_i ret s
    rw [mfree_mblk_head]
    have hsub := List.eraseP_sublist (p := fun n => decide (ptr = n.data.addr)) s.mblk_head
    exact fun n hn => ih n (hsub.subset hn)

/-- In every state of an execution no two live blocks overlap. -/
theorem run_no_overlap (L : Layout) (ret : List Int) (s : State) (h : Run L ret s) :
    no_overlap s.dir := by
  induction h with
  | init s => simp [heap_init, State.dir, no_overlap]
  | alloc_step fuel data_size r hrun hmin hmax halloc ih =>
    rename_i ret s s'
    rcases alloc_some L fuel s s' data_size r halloc with
      ⟨hr, hs⟩ | ⟨a, hr, hpos, hle, hsearch, hs⟩
    · subst hs; exact ih
    · subst hr
      have hclear := alloc_block_clear L fuel s s' data_size a (run_layout L ret s hrun)
        hmin hmax halloc
      have hd : s'.dir = s.dir ++ [⟨a, block_size (pad_data_size data_size)⟩] := by
        rw [hs]
        simp [State.dir, register_mblk_head]
      unfold no_overlap
      rw [hd, List.pairwise_append]
      refine ⟨ih, List.pairwise_singleton _ _, ?_⟩
      intro x hx y hy
      simp only [List.mem_singleton] at hy
      subst hy
      obtain ⟨n, hn, rfl⟩ := List.mem_map.mp hx
      exact hclear n hn
  | mfree_step ptr hrun ih =>
    rename_i ret s
    have hsub := List.eraseP_sublist (p := fun n => decide (ptr = n.data.addr)) s.mblk_head
    unfold no_overlap State.dir
    rw [mfree_mblk_head]
    exact List.Pairwise.sublist (hsub.map _) ih

/-! ## The example executions -/

/-- The execution `heap_init(); alloc(4);` in the build `L64`. -/
theorem run_held1 : Run L64 [4096] held1 :=
  Run.alloc_step 1 4 (some 4096) (Run.init s0) (by decide) (by decide) rfl

/-- The execution `heap_init(); alloc(4); alloc(4);` in the build `L64`. -/
theorem run_held2 : Run L64 [4116, 4096] held2 :=
  Run.alloc_step 2 4 (some 4116) run_held1 (by decide) (by decide) rfl

/-- The execution `heap_init(); alloc(4); alloc(4); mfree(heap);` in the build `L64`. -/
theorem run_hole64 : Run L64 [4116, 4096] hole64 :=
  Run.mfree_step 4096 run_held2

/-- The execution `heap_init(); alloc(4); alloc(4); mfree(heap);` in the build `L128`. -/
theorem run_hole128 : Run L128 [4116, 4096] hole128 :=
  Run.mfree_step 4096
    (Run.alloc_step 2 4 (some 4116)
      (Run.alloc_step 1 4 (some 4096) (Run.init s0) (by decide) (by decide) rfl)
      (by decide) (by decide) rfl)

/-- Right after `heap_init()` the request 2147483644 passes the guard and returns `heap`. -/
theorem alloc_overflow_result (s : State) (fuel : Nat) :
    alloc L64 (fuel + 1) (heap_init L64 s) 2147483644 =
      some (some 4096, register (heap_init L64 s) 4096 2147483644 (-2147483636)) := by
  have hp : pad_data_size 2147483644 = 2147483644 := by decide
  have hb : block_size 2147483644 = -2147483636 := by decide
  unfold alloc
  simp only [hp, hb]
  rfl

/-- Claim C1: the non-overlap invariant.  In every state reachable from `heap_init()` no
two live blocks of the Directory have ranges `[addr, addr + len)` with a byte in common;
and the block that a call of `alloc` with an `int` argument returns and records in such
a state, `[a, a + block_size)` with the recorded `block_size`, overlaps no block that was
live before the call.  (A live block that the collision test misses lies inside the
proposed block; the stores of the call then overwrite its node, the walk of line 133
leaves the list and the call does not return.) -/
theorem live_blocks_never_overlap (L : Layout) (s : State) (hreach : Reachable L s) :
    no_overlap s.dir ∧
    ∀ (fuel : Nat) (size a : Int) (s' : State), INT_MIN ≤ size → size ≤ INT_MAX →
      alloc L fuel s size = some (some a, s') →
        ∀ m ∈ s.dir, ¬ m.overlaps ⟨a, block_size (pad_data_size size)⟩ := by
  obtain ⟨ret, hrun⟩ := hreach
  refine ⟨run_no_overlap L ret s hrun, ?_⟩
  intro fuel size a s' hmin hmax h m hm
  obtain ⟨n, hn, rfl⟩ := List.mem_map.mp hm
  exact alloc_block_clear L fuel s s' size a (run_layout L ret s hrun) hmin hmax h n hn

/-- Claim C1 at work: the state after `heap_init(); alloc(4); alloc(4);`. -/
theorem live_blocks_never_overlap_witness :
    no_overlap held2.dir ∧
    ∀ (fuel : Nat) (size a : Int) (s' : State), INT_MIN ≤ size → size ≤ INT_MAX →
      alloc L64 fuel held2 size = some (some a, s') →
        ∀ m ∈ held2.dir, ¬ m.overlaps ⟨a, block_size (pad_data_size size)⟩ :=
  live_blocks_never_overlap L64 held2 ⟨_, run_held2⟩

/-- Claim C2, which the code breaks: `alloc` rejects every size that is not positive.
The padding of lines 61-62 runs before the test `data_size <= 0`, and C's remainder of
`-1` by 4 is `-1`, so `data_size` becomes `-1 + (4 - (-1)) = 4`: right after
`heap_init()`, from any state, `alloc(-1)` returns `heap` and registers a block of 20
bytes. -/
theorem alloc_minus_one_succeeds (s : State) (fuel : Nat) :
    pad_data_size (-1) = 4 ∧
    ∃ s', alloc L64 (fuel + 1) (heap_init L64 s) (-1) = some (some 4096, s') ∧
      s'.dir = [⟨4096, 20⟩] :=
  ⟨by decide, _, rfl, rfl⟩

/-- Claim C3, which the code breaks: when some offset is usable, `alloc` returns a
non-null address.  In the build with `HEAP_SIZE = 128`, after
`heap_init(); alloc(4); alloc(4); mfree(heap);` the only live block is
`[heap + 20, heap + 40)`, and offset 40 is usable for `alloc(28)` (44 bytes).  The search
stops at `heap`, where the test of lines 91-92 misses the live block that lies inside
the proposed one; the stores of lines 114-126 overwrite the live node at `heap + 32`,
and the walk of line 133 follows the overwritten `next` field: with any fuel the call has
no result. -/
theorem alloc_no_result_with_free_offset :
    Reachable L128 hole128 ∧ hole128.mblk_head = [⟨4128, ⟨4116, 20⟩⟩] ∧
    (0 : Int) ≤ 40 ∧ 40 + spec_block_size 28 ≤ L128.HEAP_SIZE ∧
    free_at hole128.dir (L128.heap + 40) (spec_block_size 28) ∧
    search L128 hole128.mblk_head 44 1 L128.heap = some (some 4096) ∧
    ∀ fuel, alloc L128 fuel hole128 28 = none := by
  refine ⟨⟨_, run_hole128⟩, rfl, by decide, by decide, by decide, rfl, ?_⟩
  intro fuel
  cases fuel with
  | zero => rfl
  | succ k => rfl

/-- Claim C4, which the code breaks: a block that `alloc` returns lies inside the array.
For `data_size = 2147483644` the sum of line 65 is `2147483660`, which the conversion
to `int` turns into `-2147483636`; the guard of line 68 lets it pass, and right after
`heap_init()` the call returns `heap`.  The block of the claim,
`round_up_4(size) + 16` bytes from `heap`, does not fit the 64-byte array, and the fill
loop of lines 114-117 writes `0xAA` to the byte just behind the array. -/
theorem alloc_overflow_block_outside_heap (s : State) (fuel : Nat) :
    ∃ s', alloc L64 (fuel + 1) (heap_init L64 s) 2147483644 = some (some 4096, s') ∧
      ¬ (4096 + spec_block_size 2147483644 ≤ L64.heap + L64.HEAP_SIZE) ∧
      s'.bytes (L64.heap + L64.HEAP_SIZE) = 0xAA := by
  have hp : pad_data_size 2147483644 = 2147483644 := by decide
  have hb : block_size 2147483644 = -2147483636 := by decide
  have ha : alloc L64 (fuel + 1) (heap_init L64 s) 2147483644 =
      some (some 4096, register (heap_init L64 s) 4096 2147483644 (-2147483636)) := by
    unfold alloc
    simp only [hp, hb]
    rfl
  refine ⟨_, ha, by decide, ?_⟩
  have h : (heap_init L64 s).mblk_head.getLast? = none := rfl
  simp only [register, h]
  rw [storeWord_frame _ _ _ _ (by decide), storeWord_frame _ _ _ _ (by decide),
    storeWord_frame _ _ _ _ (by decide), storeWord_frame _ _ _ _ (by decide), fill_apply]
  rw [if_pos (by decide)]

/-- Claim C5, which the code breaks: a successful `alloc` returns the lowest address `a`
of `[heap, heap + HEAP_SIZE - block_size]` whose block overlaps no live block, with
`block_size = round_up_4(size) + sizeof(MBLK) + sizeof(ListNode)`.  Right after
`heap_init()` the call `alloc(2147483644)` succeeds and returns `heap`, although
`block_size = 2147483660` exceeds `HEAP_SIZE = 64` and the interval
`[heap, heap + HEAP_SIZE - block_size]` has no address at all. -/
theorem alloc_overflow_outside_first_fit_range (s : State) (fuel : Nat) :
    (∃ s', alloc L64 (fuel + 1) (heap_init L64 s) 2147483644 = some (some 4096, s')) ∧
    spec_block_size 2147483644 = 2147483660 ∧
    ¬ ∃ a, L64.heap ≤ a ∧ a ≤ L64.heap + L64.HEAP_SIZE - spec_block_size 2147483644 := by
  have hb : spec_block_size 2147483644 = 2147483660 := by decide
  refine ⟨⟨_, alloc_overflow_result s fuel⟩, hb, ?_⟩
  rintro ⟨a, h1, h2⟩
  rw [hb] at h2
  have h3 : L64.heap = 4096 := rfl
  have h4 : L64.HEAP_SIZE = 64 := rfl
  omega

/-- When every live block has a positive length, `mfree` of the address `alloc` has just
returned restores the list. -/
theorem alloc_then_mfree_restores_of_pos (L : Layout) (s s' : State) (fuel : Nat)
    (size a : Int) (hlen : ∀ n ∈ s.mblk_head, 0 < n.data.len)
    (halloc : alloc L fuel s size = some (some a, s')) :
    (mfree s' a).mblk_head = s.mblk_head ∧ (mfree s' a).dir = s.dir := by
  have key : (mfree s' a).mblk_head = s.mblk_head := by
    rcases alloc_some L fuel s s' size (some a) halloc with
      ⟨hr, -⟩ | ⟨b, hr, -, -, hsearch, hs⟩
    · cases hr
    · cases hr
      have hne := search_no_live_addr L s.mblk_head _ fuel L.heap a hsearch hlen
      rw [mfree_mblk_head, hs, register_mblk_head,
        List.eraseP_append_right _ (by
          intro n hn
          simpa using fun e => hne n hn e.symm)]
      simp [List.eraseP_cons]
  exact ⟨key, by unfold State.dir; rw [key]⟩

/-- Claim C7: an invalid free changes nothing.  In every state, when the pointer `p` is
the address of no live block, `mfree(p)` leaves the list and every byte of memory as
they were. -/
theorem mfree_unknown_pointer (s : State) (p : Int) (h : ∀ m ∈ s.dir, m.addr ≠ p) :
    mfree s p = s :=
  mfree_loop_no_match s p s.mblk_head []
    (fun n hn => h n.data (List.mem_map_of_mem (fun n => n.data) hn))

/-- Claim C7 at work: `mfree` of an address that no block has. -/
theorem mfree_unknown_pointer_witness : mfree held1 5000 = held1 :=
  mfree_unknown_pointer held1 5000 (by decide)

/-- When the live blocks have pairwise distinct addresses, no live block has the address
`p` after `mfree(p)`, and a second `mfree(p)` changes nothing. -/
theorem double_free_of_nodup (s : State) (p : Int)
    (hnodup : (s.mblk_head.map (fun n => n.data.addr)).Nodup) :
    (∀ m ∈ (mfree s p).dir, m.addr ≠ p) ∧ mfree (mfree s p) p = mfree s p := by
  have hgone : ∀ m ∈ (mfree s p).dir, m.addr ≠ p := by
    intro m hm
    unfold State.dir at hm
    rw [mfree_mblk_head] at hm
    obtain ⟨n, hn, rfl⟩ := List.mem_map.mp hm
    exact eraseP_nodup_addr p s.mblk_head hnodup n hn
  exact ⟨hgone, mfree_loop_no_match (mfree s p) p (mfree s p).mblk_head []
    (fun n hn => hgone n.data (List.mem_map_of_mem (fun n => n.data) hn))⟩

/-- Claim C9, which the code breaks: a request whose rounded size plus the metadata
exceeds `HEAP_SIZE` is rejected at once.  For `data_size = 2147483644` no padding is
needed and the specification's block size `2147483660` exceeds `HEAP_SIZE = 64`, but
the `size_t` sum of line 65 converted to `int` is `-2147483636`, which is not greater
than `HEAP_SIZE`: right after `heap_init()` the call returns `heap` and registers a
block of negative length. -/
theorem alloc_oversize_not_rejected (s : State) (fuel : Nat) :
    spec_block_size 2147483644 > L64.HEAP_SIZE ∧
    block_size (pad_data_size 2147483644) = -2147483636 ∧
    ∃ s', alloc L64 (fuel + 1) (heap_init L64 s) 2147483644 = some (some 4096, s') ∧
      s'.dir = [⟨4096, -2147483636⟩] :=
  ⟨by decide, by decide, _, rfl, rfl⟩

/-- Claim C10: atomic failure.  In every state and for every size, when `alloc` returns
the null pointer, on the guard of line 68 or on the exhaustion test of line 98, the
byte memory and the list after the call are those before it. -/
theorem alloc_null_leaves_state (L : Layout) (fuel : Nat) (s s' : State) (size : Int)
    (h : alloc L fuel s size = some (none, s')) : s' = s := by
  rcases alloc_some L fuel s s' size none h with ⟨-, hs⟩ | ⟨a, hr, -⟩
  · exact hs
  · cases hr

/-- Claim C10 at work: with `[heap, heap + 40)` taken in a 64-byte heap the call
`alloc(12)` (28 bytes) is moved to `heap + 40` and gives up there. -/
theorem alloc_null_leaves_state_witness :
    alloc L64 3 held2 12 = some (none, held2) ∧ held2 = held2 :=
  ⟨rfl, alloc_null_leaves_state L64 3 held2 held2 12 rfl⟩

/-! ## Further claims -/

/-- Against blocks inside the array a pass that moves `addr` moves it up and not past
the end of the array, whether `block_size` is positive or so far below zero that the
last byte of the proposed block lies below the array. -/
theorem scan_moved_in_heap (L : Layout) (bs addr a1 : Int) (l : List ListNode)
    (hblocks : ∀ n ∈ l,
      L.heap ≤ n.data.addr ∧ n.data.addr + n.data.len ≤ L.heap + L.HEAP_SIZE)
    (hq : 1 ≤ bs ∨ addr + bs - 1 < L.heap)
    (h : scan L bs addr l = Pass.moved a1) :
    addr < a1 ∧ a1 ≤ L.heap + L.HEAP_SIZE := by
  induction l with
  | nil => simp [scan] at h
  | cons t next ih =>
    simp only [scan] at h
    have ht := hblocks t (List.mem_cons_self _ _)
    split_ifs at h with hc hfull
    · rw [address_collides_iff] at hc
      simp only [Pass.moved.injEq] at h
      omega
    · exact ih (fun n hn => hblocks n (List.mem_cons_of_mem _ hn)) h

/-- Against blocks inside the array the search ends within `HEAP_SIZE + 1` passes. -/
theorem search_terminates_in_heap (L : Layout) (head : List ListNode) (bs : Int)
    (hblocks : ∀ n ∈ head,
      L.heap ≤ n.data.addr ∧ n.data.addr + n.data.len ≤ L.heap + L.HEAP_SIZE)
    (hq : 1 ≤ bs ∨ L.heap + L.HEAP_SIZE + bs - 1 < L.heap)
    (fuel : Nat) (addr : Int) (hle : addr ≤ L.heap + L.HEAP_SIZE)
    (hfuel : L.heap + L.HEAP_SIZE - addr < fuel) :
    ∃ r, search L head bs fuel addr = some r := by
  induction fuel generalizing addr with
  | zero => omega
  | succ k ih =>
    simp only [search]
    cases hs : scan L bs addr head with
    | clear => exact ⟨_, rfl⟩
    | full => exact ⟨_, rfl⟩
    | moved a1 =>
      have h1 := scan_moved_in_heap L bs addr a1 head hblocks (by omega) hs
      exact ih a1 h1.2 (by omega)

/-- Claim C11, which the code breaks: in every reachable state every call of `alloc`
terminates.  In the build with `HEAP_SIZE = 64`, after
`heap_init(); alloc(4); alloc(4); mfree(heap);` the search of `alloc(28)` ends after one
pass, at `heap`, because the test of lines 91-92 misses the live block
`[heap + 20, heap + 40)` inside the proposed block.  The stores of lines 114-126 then
cover the `next` field of the live node at `heap + 32`, and the walk of line 133, which
is to stop at the tail of the list, follows what they left there: the call does not
complete, whatever the fuel. -/
theorem alloc_walk_leaves_list :
    Reachable L64 hole64 ∧ hole64.mblk_head = [⟨4128, ⟨4116, 20⟩⟩] ∧
    search L64 hole64.mblk_head (block_size (pad_data_size 28)) 1 L64.heap =
      some (some 4096) ∧
    link_clobbered hole64.mblk_head 4096 (pad_data_size 28) = true ∧
    ∀ fuel, alloc L64 fuel hole64 28 = none := by
  refine ⟨⟨_, run_hole64⟩, rfl, rfl, rfl, ?_⟩
  intro fuel
  cases fuel with
  | zero => rfl
  | succ k => rfl

/-- Claim C12: the scenario, for all positive sizes.  From `heap_init()`, `alloc(s1)`
returns `heap` and leaves the single descriptor `{heap, block_size(s1)}`; `alloc(s2)`
returns `heap + block_size(s1)`; `mfree(heap)` leaves only the second descriptor; and
`alloc(s3)` with `block_size(s3) ≤ block_size(s1)` returns `heap` again, provided the
first two blocks fit in `HEAP_SIZE`.  Two passes of the search are enough throughout. -/
theorem scenario_reuse (L : Layout) (s : State) (s1 s2 s3 : Int) (fuel : Nat)
    (h1 : 0 < s1) (h2 : 0 < s2) (h3 : 0 < s3)
    (hfit : spec_block_size s1 + spec_block_size s2 ≤ L.HEAP_SIZE)
    (hsmall : spec_block_size s3 ≤ spec_block_size s1) :
    ∃ t1 t2 t4,
      alloc L (fuel + 2) (heap_init L s) s1 = some (some L.heap, t1) ∧
      t1.dir = [⟨L.heap, spec_block_size s1⟩] ∧
      alloc L (fuel + 2) t1 s2 = some (some (L.heap + spec_block_size s1), t2) ∧
      t2.dir = [⟨L.heap, spec_block_size s1⟩,
        ⟨L.heap + spec_block_size s1, spec_block_size s2⟩] ∧
      (mfree t2 L.heap).dir = [⟨L.heap + spec_block_size s1, spec_block_size s2⟩] ∧
      alloc L (fuel + 2) (mfree t2 L.heap) s3 = some (some L.heap, t4) := by
  have hL := L.HEAP_SIZE_int
  have hr1 := (round_up_4_spec s1).1
  have hr2 := (round_up_4_spec s2).1
  have hr3 := (round_up_4_spec s3).1
  have hs1 : spec_block_size s1 = round_up_4 s1 + 16 := by
    unfold spec_block_size sizeofMBLK sizeofListNode; omega
  have hs2 : spec_block_size s2 = round_up_4 s2 + 16 := by
    unfold spec_block_size sizeofMBLK sizeofListNode; omega
  have hs3 : spec_block_size s3 = round_up_4 s3 + 16 := by
    unfold spec_block_size sizeofMBLK sizeofListNode; omega
  rw [hs1, hs2] at hfit
  rw [hs3, hs1] at hsmall
  rw [hs1, hs2]
  have hp1 : pad_data_size s1 = round_up_4 s1 := pad_data_size_pos s1 h1 (by omega)
  have hp2 : pad_data_size s2 = round_up_4 s2 := pad_data_size_pos s2 h2 (by omega)
  have hp3 : pad_data_size s3 = round_up_4 s3 := pad_data_size_pos s3 h3 (by omega)
  have hb1 : block_size (round_up_4 s1) = round_up_4 s1 + 16 :=
    block_size_eq _ (by omega) (by omega)
  have hb2 : block_size (round_up_4 s2) = round_up_4 s2 + 16 :=
    block_size_eq _ (by omega) (by omega)
  have hb3 : block_size (round_up_4 s3) = round_up_4 s3 + 16 :=
    block_size_eq _ (by omega) (by omega)
  have hd1 : (register (heap_init L s) L.heap (round_up_4 s1)
      (round_up_4 s1 + 16)).mblk_head =
      [⟨L.heap + round_up_4 s1 + 8, ⟨L.heap, round_up_4 s1 + 16⟩⟩] := by
    rw [register_mblk_head]; rfl
  have hd2 : (register (register (heap_init L s) L.heap (round_up_4 s1)
      (round_up_4 s1 + 16)) (L.heap + (round_up_4 s1 + 16)) (round_up_4 s2)
      (round_up_4 s2 + 16)).mblk_head =
      [⟨L.heap + round_up_4 s1 + 8, ⟨L.heap, round_up_4 s1 + 16⟩⟩,
        ⟨L.heap + (round_up_4 s1 + 16) + round_up_4 s2 + 8,
          ⟨L.heap + (round_up_4 s1 + 16), round_up_4 s2 + 16⟩⟩] := by
    rw [register_mblk_head, hd1]; rfl
  have hd3 : (mfree (register (register (heap_init L s) L.heap (round_up_4 s1)
      (round_up_4 s1 + 16)) (L.heap + (round_up_4 s1 + 16)) (round_up_4 s2)
      (round_up_4 s2 + 16)) L.heap).mblk_head =
      [⟨L.heap + (round_up_4 s1 + 16) + round_up_4 s2 + 8,
          ⟨L.heap + (round_up_4 s1 + 16), round_up_4 s2 + 16⟩⟩] := by
    rw [mfree_mblk_head, hd2]
    simp [List.eraseP_cons]
  refine ⟨register (heap_init L s) L.heap (round_up_4 s1) (round_up_4 s1 + 16),
    register (register (heap_init L s) L.heap (round_up_4 s1) (round_up_4 s1 + 16))
      (L.heap + (round_up_4 s1 + 16)) (round_up_4 s2) (round_up_4 s2 + 16),
    register (mfree (register (register (heap_init L s) L.heap (round_up_4 s1)
      (round_up_4 s1 + 16)) (L.heap + (round_up_4 s1 + 16)) (round_up_4 s2)
      (round_up_4 s2 + 16)) L.heap) L.heap (round_up_4 s3) (round_up_4 s3 + 16),
    ?_, ?_, ?_, ?_, ?_, ?_⟩
  · unfold alloc
    simp only [hp1, hb1]
    rw [if_neg (by omega)]
    rfl
  · simp only [State.dir, hd1, List.map_cons, List.map_nil, add_assoc]
  · have hc1 : address_collides L.heap (round_up_4 s2 + 16)
        ⟨L.heap, round_up_4 s1 + 16⟩ = true := by
      rw [address_collides_iff]; left; simp only; omega
    have hc2 : ¬ address_collides (L.heap + (round_up_4 s1 + 16)) (round_up_4 s2 + 16)
        ⟨L.heap, round_up_4 s1 + 16⟩ = true := by
      rw [address_collides_iff]; simp; omega
    have hsearch : search L [⟨L.heap + round_up_4 s1 + 8, ⟨L.heap, round_up_4 s1 + 16⟩⟩]
        (round_up_4 s2 + 16) (fuel + 2) L.heap =
        some (some (L.heap + (round_up_4 s1 + 16))) := by
      have hscan1 : scan L (round_up_4 s2 + 16) L.heap
          [⟨L.heap + round_up_4 s1 + 8, ⟨L.heap, round_up_4 s1 + 16⟩⟩] =
          Pass.moved (L.heap + (round_up_4 s1 + 16)) := by
        simp only [scan, hc1, if_true]
        rw [if_neg (by omega)]
      have hscan2 : scan L (round_up_4 s2 + 16) (L.heap + (round_up_4 s1 + 16))
          [⟨L.heap + round_up_4 s1 + 8, ⟨L.heap, round_up_4 s1 + 16⟩⟩] = Pass.clear := by
        simp only [scan]
        rw [if_neg hc2]
      simp only [search, hscan1, hscan2]
    have hcl : link_clobbered [⟨L.heap + round_up_4 s1 + 8, ⟨L.heap, round_up_4 s1 + 16⟩⟩]
        (L.heap + (round_up_4 s1 + 16)) (round_up_4 s2) = false := by
      rw [link_clobbered_false]
      intro t ht
      simp only [List.mem_singleton] at ht
      subst ht
      simp only
      omega
    unfold alloc
    simp only [hp2, hb2, hd1]
    rw [if_neg (by omega)]
    simp only [hsearch, hcl]
    rfl
  · simp only [State.dir, hd2, List.map_cons, List.map_nil, add_assoc]
  · simp only [State.dir, hd3, List.map_cons, List.map_nil, add_assoc]
  · have hc3 : ¬ address_collides L.heap (round_up_4 s3 + 16)
        ⟨L.heap + (round_up_4 s1 + 16), round_up_4 s2 + 16⟩ = true := by
      rw [address_collides_iff]; simp; omega
    have hsearch : search L [⟨L.heap + (round_up_4 s1 + 16) + round_up_4 s2 + 8,
          ⟨L.heap + (round_up_4 s1 + 16), round_up_4 s2 + 16⟩⟩]
        (round_up_4 s3 + 16) (fuel + 2) L.heap = some (some L.heap) := by
      have hscan3 : scan L (round_up_4 s3 + 16) L.heap
          [⟨L.heap + (round_up_4 s1 + 16) + round_up_4 s2 + 8,
            ⟨L.heap + (round_up_4 s1 + 16), round_up_4 s2 + 16⟩⟩] = Pass.clear := by
        simp only [scan]
        rw [if_neg hc3]
      simp only [search, hscan3]
    have hcl : link_clobbered [⟨L.heap + (round_up_4 s1 + 16) + round_up_4 s2 + 8,
          ⟨L.heap + (round_up_4 s1 + 16), round_up_4 s2 + 16⟩⟩]
        L.heap (round_up_4 s3) = false := by
      rw [link_clobbered_false]
      intro t ht
      simp only [List.mem_singleton] at ht
      subst ht
      unfold sizeofMBLK sizeofListNode
      simp only
      omega
    unfold alloc
    simp only [hp3, hb3, hd3]
    rw [if_neg (by omega)]
    simp only [hsearch, hcl]
    rfl

/-- Claim C12 at work: `HEAP_SIZE = 64`, `s1 = s2 = 8`, `s3 = 4`. -/
theorem scenario_reuse_witness :
    ∃ t1 t2 t4,
      alloc L64 2 (heap_init L64 s0) 8 = some (some 4096, t1) ∧
      t1.dir = [⟨4096, 24⟩] ∧
      alloc L64 2 t1 8 = some (some 4120, t2) ∧
      t2.dir = [⟨4096, 24⟩, ⟨4120, 24⟩] ∧
      (mfree t2 4096).dir = [⟨4120, 24⟩] ∧
      alloc L64 2 (mfree t2 4096) 4 = some (some 4096, t4) :=
  scenario_reuse L64 s0 8 8 4 0 (by decide) (by decide) (by decide) (by decide)
    (by decide)

/-- When the block size of a positive request does not overflow, the length a
successful `alloc` records is the specification's block size. -/
theorem alloc_records_spec_block_size (L : Layout) (fuel : Nat) (s s' : State)
    (size a : Int) (hsize : 0 < size) (hno : spec_block_size size ≤ INT_MAX)
    (h : alloc L fuel s size = some (some a, s')) :
    s'.dir = s.dir ++ [⟨a, spec_block_size size⟩] := by
  have hr := (round_up_4_spec size).1
  unfold spec_block_size sizeofMBLK sizeofListNode INT_MAX at *
  have hp : pad_data_size size = round_up_4 size := pad_data_size_pos size hsize (by omega)
  have hb : block_size (round_up_4 size) = round_up_4 size + 16 :=
    block_size_eq _ (by omega) (by omega)
  rcases alloc_some L fuel s s' size (some a) h with ⟨hr, -⟩ | ⟨b, hr, -, -, -, hs⟩
  · cases hr
  · cases hr
    rw [hs, hp, hb]
    simp [State.dir, register_mblk_head, add_assoc]

/-- Claim C13, which the code breaks: the length recorded by a successful `alloc(size)`
with `size > 0` is `round_up_4(size) + sizeof(MBLK) + sizeof(ListNode)`.  The rounding
itself is right (`alloc(5)` and `alloc(8)` both use 8 bytes and the same block size),
but for `size = 2147483644` the sum of line 65 does not fit an `int`: right after
`heap_init()` the call succeeds and records the length `-2147483636`, not
`2147483660`. -/
theorem alloc_records_wrapped_length (s : State) (fuel : Nat) :
    pad_data_size 5 = 8 ∧ pad_data_size 8 = 8 ∧ block_size 8 = spec_block_size 5 ∧
    spec_block_size 2147483644 = 2147483660 ∧
    ∃ s', alloc L64 (fuel + 1) (heap_init L64 s) 2147483644 = some (some 4096, s') ∧
      s'.dir = [⟨4096, -2147483636⟩] ∧
      (-2147483636 : Int) ≠ spec_block_size 2147483644 :=
  ⟨by decide, by decide, by decide, by decide, _, rfl, rfl, by decide⟩

/-- Claim C14: initialisation.  From every state, after `heap_init()` the list is empty
(`mblk_head` is null), so the Directory is empty, and each of the `HEAP_SIZE` bytes
`heap[i]` equals `0xFE`. -/
theorem heap_init_clears (L : Layout) (s : State) :
    (heap_init L s).mblk_head = [] ∧ (heap_init L s).dir = [] ∧
      ∀ i : Int, 0 ≤ i → i < L.HEAP_SIZE → (heap_init L s).bytes (L.heap + i) = 0xFE := by
  refine ⟨rfl, rfl, ?_⟩
  intro i h0 h1
  simp only [heap_init]
  rw [fill_apply, if_pos (by omega)]

/-- The collision test never reports a collision between ranges that share no byte. -/
theorem address_collides_overlap (addr bs : Int) (m : MBLK) (hbs : 0 < bs)
    (h : address_collides addr bs m = true) :
    ranges_overlap addr (addr + bs) m.addr (m.addr + m.len) := by
  rw [address_collides_iff] at h
  unfold ranges_overlap
  omega

/-- Claim C15, which the code breaks: the collision test is true exactly when the two
half-open ranges overlap.  For the candidate `heap`, `block_size = 44` and the live
block `[heap + 20, heap + 40)` (both sizes positive) the ranges overlap, but the test
of lines 91-92 is false, since neither end byte of the proposed block lies in the live
block; the pass over the Directory of `hole64` therefore ends without a collision. -/
theorem collision_test_misses_containment :
    (0 : Int) < 44 ∧ (0 : Int) < 20 ∧
    ranges_overlap 4096 (4096 + 44) 4116 (4116 + 20) ∧
    address_collides 4096 44 ⟨4116, 20⟩ = false ∧
    scan L64 44 4096 hole64.mblk_head = Pass.clear :=
  ⟨by decide, by decide, by decide, by decide, by decide⟩

/-- Claim C16: registration on success.  In every state, when `alloc(size)` returns the
non-null address `a`, the Directory afterwards is the Directory before followed by the
one descriptor `{a, block_size}`, `block_size` being the value of the variable of that
name; the list of nodes is the old list followed by the new node, stored at
`a + data_size + sizeof(MBLK)`. -/
theorem alloc_appends_descriptor (L : Layout) (fuel : Nat) (s s' : State) (size a : Int)
    (h : alloc L fuel s size = some (some a, s')) :
    s'.dir = s.dir ++ [⟨a, block_size (pad_data_size size)⟩] ∧
    s'.mblk_head = s.mblk_head ++
      [⟨a + pad_data_size size + sizeofMBLK, ⟨a, block_size (pad_data_size size)⟩⟩] := by
  rcases alloc_some L fuel s s' size (some a) h with ⟨hr, -⟩ | ⟨b, hr, -, -, -, hs⟩
  · cases hr
  · cases hr
    rw [hs]
    simp [State.dir, register_mblk_head]

/-- Claim C16 at work: `alloc(8)` after `heap_init(); alloc(4);`. -/
theorem alloc_appends_descriptor_witness :
    (register held1 4116 8 24).dir = held1.dir ++ [⟨4116, block_size (pad_data_size 8)⟩] ∧
    (register held1 4116 8 24).mblk_head = held1.mblk_head ++
      [⟨4116 + pad_data_size 8 + sizeofMBLK, ⟨4116, block_size (pad_data_size 8)⟩⟩] :=
  alloc_appends_descriptor L64 2 held1 (register held1 4116 8 24) 8 4116 rfl

/-- Mapping to the descriptors commutes with unlinking the first match. -/
theorem map_data_eraseP (ptr : Int) (l : List ListNode) :
    (l.eraseP (fun n => decide (ptr = n.data.addr))).map (fun n => n.data) =
      (l.map (fun n => n.data)).eraseP (fun m => decide (ptr = m.addr)) := by
  induction l with
  | nil => rfl
  | cons t next ih =>
    by_cases ht : ptr = t.data.addr
    · simp [List.eraseP_cons, ht]
    · simp [List.eraseP_cons, ht, ih]

/-- Claim C17: unlink on release.  In every state, when `p` is the address of some live
block, the Directory splits as `l1 ++ m :: l2` with `m` the first descriptor whose
address is `p`, and after `mfree(p)` the Directory is `l1 ++ l2`: one entry fewer, the
others in their order. -/
theorem mfree_unlinks_first (s : State) (p : Int) (h : ∃ m ∈ s.dir, m.addr = p) :
    (∃ l1 m l2, s.dir = l1 ++ m :: l2 ∧ (∀ x ∈ l1, x.addr ≠ p) ∧ m.addr = p ∧
      (mfree s p).dir = l1 ++ l2) ∧
    (mfree s p).dir.length + 1 = s.dir.length := by
  obtain ⟨m, hm, hmp⟩ := h
  have hd : (mfree s p).dir = s.dir.eraseP (fun m => decide (p = m.addr)) := by
    unfold State.dir
    rw [mfree_mblk_head, map_data_eraseP]
  obtain ⟨b, l1, l2, h1, h2, h3, h4⟩ :=
    List.exists_of_eraseP (p := fun m => decide (p = m.addr)) hm (by simpa using hmp.symm)
  refine ⟨⟨l1, b, l2, h3, ?_, ?_, ?_⟩, ?_⟩
  · intro x hx e
    exact h1 x hx (by simpa using e.symm)
  · simpa using Eq.symm (of_decide_eq_true h2)
  · rw [hd, h4]
  · rw [hd, h4, h3]
    simp
    omega

/-- Claim C17 at work: freeing the second of two blocks. -/
theorem mfree_unlinks_first_witness :
    (∃ l1 m l2, held2.dir = l1 ++ m :: l2 ∧ (∀ x ∈ l1, x.addr ≠ 4116) ∧ m.addr = 4116 ∧
      (mfree held2 4116).dir = l1 ++ l2) ∧
    (mfree held2 4116).dir.length + 1 = held2.dir.length :=
  mfree_unlinks_first held2 4116 ⟨⟨4116, 20⟩, by decide, rfl⟩

/-- A node with another address is passed by. -/
theorem mfree_loop_cons_ne (s : State) (ptr : Int) (seen : List ListNode) (t : ListNode)
    (l : List ListNode) (h : ¬ ptr = t.data.addr) :
    mfree_loop s ptr seen (t :: l) = mfree_loop s ptr (seen ++ [t]) l := by
  simp only [mfree_loop]
  rw [if_neg h]

/-- The state the loop of `mfree` produces when the first node with the pointer is `n`. -/
theorem mfree_loop_first_match (s : State) (ptr : Int) (n : ListNode)
    (l1 l2 seen : List ListNode) (hfirst : ∀ x ∈ l1, x.data.addr ≠ ptr)
    (hn : n.data.addr = ptr) :
    mfree_loop s ptr seen (l1 ++ n :: l2) =
      { bytes := fill n.data.addr 0xEE n.data.len.toNat
          (match (seen ++ l1).getLast? with
           | none => s.bytes
           | some trail =>
             storeWord s.bytes trail.loc
               (match l2 with
                | [] => 0
                | x :: _ => x.loc))
        mblk_head := (seen ++ l1) ++ l2 } := by
  induction l1 generalizing seen with
  | nil =>
    simp only [List.nil_append, List.append_nil, mfree_loop]
    rw [if_pos hn.symm]
  | cons t rest ih =>
    have ht : ¬ ptr = t.data.addr := fun e => hfirst t (List.mem_cons_self _ _) e.symm
    rw [List.cons_append, mfree_loop_cons_ne s ptr seen t _ ht,
      ih (seen ++ [t]) (fun x hx => hfirst x (List.mem_cons_of_mem _ hx))]
    simp

/-- Claim C18, amended: scrub on release.  In every state, when `p` is the address of
some live block, let `n` be the first node of the list whose block has the address `p`.
After `mfree(p)` every byte of `[addr, addr + len)` of that block equals `0xEE`, and
every byte outside that span has the value it had before the call, unless it is one of
the 4 bytes of the `next` field of the node linked just before `n` (there is none when
`n` is the head of the list): the unlinking of line 158 stores into that field. -/
theorem mfree_scrubs_block (s : State) (p : Int) (h : ∃ m ∈ s.dir, m.addr = p) :
    ∃ l1 n l2, s.mblk_head = l1 ++ n :: l2 ∧ (∀ x ∈ l1, x.data.addr ≠ p) ∧
      n.data.addr = p ∧
      (∀ q, n.data.addr ≤ q → q < n.data.addr + n.data.len →
        (mfree s p).bytes q = 0xEE) ∧
      (∀ q, ¬ (n.data.addr ≤ q ∧ q < n.data.addr + n.data.len) →
        (∀ trail, l1.getLast? = some trail → ¬ (trail.loc ≤ q ∧ q < trail.loc + 4)) →
        (mfree s p).bytes q = s.bytes q) := by
  obtain ⟨m, hm, hmp⟩ := h
  obtain ⟨n0, hn0, rfl⟩ := List.mem_map.mp hm
  obtain ⟨n, l1, l2, h1, h2, h3, -⟩ :=
    List.exists_of_eraseP (p := fun n => decide (p = n.data.addr)) hn0
      (by simpa using hmp.symm)
  have hfirst : ∀ x ∈ l1, x.data.addr ≠ p := by
    intro x hx e
    exact h1 x hx (by simpa using e.symm)
  have hn : n.data.addr = p := by simpa using Eq.symm (of_decide_eq_true h2)
  have hstate := mfree_loop_first_match s p n l1 l2 [] hfirst hn
  refine ⟨l1, n, l2, h3, hfirst, hn, ?_, ?_⟩
  · intro q hq1 hq2
    unfold mfree
    rw [h3, hstate]
    simp only
    rw [fill_apply, if_pos (by omega)]
  · intro q hq htrail
    unfold mfree
    rw [h3, hstate]
    simp only [List.nil_append]
    rw [fill_apply, if_neg (by omega)]
    cases hl : l1.getLast? with
    | none => rfl
    | some trail =>
      simp only
      have := htrail trail hl
      rw [storeWord_frame _ _ _ _ (by omega)]

/-- Claim C18, amended, at work: freeing the second of two blocks. -/
theorem mfree_scrubs_block_witness :
    ∃ l1 n l2, held2.mblk_head = l1 ++ n :: l2 ∧ (∀ x ∈ l1, x.data.addr ≠ 4116) ∧
      n.data.addr = 4116 ∧
      (∀ q, n.data.addr ≤ q → q < n.data.addr + n.data.len →
        (mfree held2 4116).bytes q = 0xEE) ∧
      (∀ q, ¬ (n.data.addr ≤ q ∧ q < n.data.addr + n.data.len) →
        (∀ trail, l1.getLast? = some trail → ¬ (trail.loc ≤ q ∧ q < trail.loc + 4)) →
        (mfree held2 4116).bytes q = held2.bytes q) :=
  mfree_scrubs_block held2 4116 ⟨⟨4116, 20⟩, by decide, rfl⟩

/-- Claim C18 as stated fails.  After `heap_init(); alloc(4); alloc(4);` the block
`[heap + 20, heap + 40)` is live and inside the array; `mfree(heap + 20)` rewires the
`next` field of the first block's node, at `heap + 12`, outside the span: the byte
there changes from `0x20` to `0`.  And in a state with two live blocks at the address
`heap`, of 4 and of 24 bytes, `mfree(heap)` scrubs the span of the first one only: the
byte `heap + 4` of the second block's span is not `0xEE`. -/
theorem mfree_changes_byte_outside_span :
    (⟨4116, 20⟩ ∈ held2.dir ∧ L64.heap ≤ 4116 ∧ 4116 + 20 ≤ L64.heap + L64.HEAP_SIZE ∧
      ¬ ((4116 : Int) ≤ 4108 ∧ (4108 : Int) < 4116 + 20) ∧
      L64.heap ≤ 4108 ∧ 4108 < L64.heap + L64.HEAP_SIZE ∧
      held2.bytes 4108 = 32 ∧ (mfree held2 4116).bytes 4108 = 0) ∧
    (⟨4096, 24⟩ ∈ twins.dir ∧ L64.heap ≤ 4096 ∧ 4096 + 24 ≤ L64.heap + L64.HEAP_SIZE ∧
      ((4096 : Int) ≤ 4100 ∧ (4100 : Int) < 4096 + 24) ∧
      (mfree twins 4096).bytes 4100 = 0) := by
  refine ⟨⟨by decide, by decide, by decide, by decide, by decide, by decide, ?_, ?_⟩,
    ⟨by decide, by decide, by decide, by decide, ?_⟩⟩
  · rfl
  · rfl
  · rfl

/-- The positions a moving pass jumps over are all unusable for a block of `n` bytes,
when `n` is positive and at least the `block_size` the test works with. -/
theorem scan_moved_unusable (L : Layout) (bs n addr a1 : Int) (l : List ListNode)
    (hn : 0 < n) (hbs : bs ≤ n) (h : scan L bs addr l = Pass.moved a1) :
    ∀ a', addr ≤ a' → a' < a1 →
      ∃ x ∈ l, ranges_overlap a' (a' + n) x.data.addr (x.data.addr + x.data.len) := by
  induction l with
  | nil => simp [scan] at h
  | cons t next ih =>
    simp only [scan] at h
    split_ifs at h with hc hfull
    · rw [address_collides_iff] at hc
      simp only [Pass.moved.injEq] at h
      intro a' h1 h2
      refine ⟨t, List.mem_cons_self _ _, ?_⟩
      unfold ranges_overlap
      omega
    · intro a' h1 h2
      obtain ⟨x, hx, hov⟩ := ih h a' h1 h2
      exact ⟨x, List.mem_cons_of_mem _ hx, hov⟩

/-- When every position from `lo` up to the start of the search is unusable, so is
every position from `lo` up to the address the search returns. -/
theorem search_no_skip (L : Layout) (head : List ListNode) (bs n lo : Int)
    (hn : 0 < n) (hbs : bs ≤ n) (fuel : Nat) (addr a : Int)
    (h : search L head bs fuel addr = some (some a))
    (hinv : ∀ a', lo ≤ a' → a' < addr →
      ∃ x ∈ head, ranges_overlap a' (a' + n) x.data.addr (x.data.addr + x.data.len)) :
    ∀ a', lo ≤ a' → a' < a →
      ∃ x ∈ head, ranges_overlap a' (a' + n) x.data.addr (x.data.addr + x.data.len) := by
  induction fuel generalizing addr with
  | zero => simp [search] at h
  | succ k ih =>
    simp only [search] at h
    split at h
    · simp only [Option.some.injEq] at h
      rw [← h]; exact hinv
    · simp at h
    · rename_i a1 hs
      apply ih a1 h
      intro a' h1 h2
      by_cases hlt : a' < addr
      · exact hinv a' h1 hlt
      · exact scan_moved_unusable L bs n addr a1 head hn hbs hs a' (by omega) h2

/-- In a reachable state a successful positive request whose block size fits an `int`
is served first-fit: the block lies inside the array, overlaps no live block, and no
lower address of the array is usable. -/
theorem alloc_first_fit (L : Layout) (fuel : Nat) (s s' : State) (size a : Int)
    (hreach : Reachable L s) (hsize : 0 < size) (hno : spec_block_size size ≤ INT_MAX)
    (h : alloc L fuel s size = some (some a, s')) :
    (L.heap ≤ a ∧ a + spec_block_size size ≤ L.heap + L.HEAP_SIZE) ∧
    free_at s.dir a (spec_block_size size) ∧
    ∀ a', L.heap ≤ a' → a' < a → ¬ free_at s.dir a' (spec_block_size size) := by
  obtain ⟨ret, hrun⟩ := hreach
  have hr := (round_up_4_spec size).1
  have hmax : size ≤ INT_MAX := by
    unfold spec_block_size sizeofMBLK sizeofListNode at hno
    omega
  have hmin : INT_MIN ≤ size := by unfold INT_MIN; omega
  rcases alloc_some L fuel s s' size (some a) h with
    ⟨hr0, -⟩ | ⟨b, hr0, hpos, -, hsearch, -⟩
  · cases hr0
  · cases hr0
    have hp := pad_data_size_of_pos size hsize hmax hpos
    have hsp : spec_block_size size = pad_data_size size + 16 := by
      unfold spec_block_size sizeofMBLK sizeofListNode; omega
    have hbs : block_size (pad_data_size size) = pad_data_size size + 16 :=
      block_size_eq _ (by omega) (by unfold INT_MAX at hno; omega)
    have hin := alloc_block_in_heap L fuel s s' size a h
      (by unfold sizeofMBLK sizeofListNode; omega) a rfl
    have hclear := alloc_block_clear L fuel s s' size a (run_layout L ret s hrun)
      hmin hmax h
    unfold sizeofMBLK sizeofListNode at hin
    refine ⟨by omega, ?_, ?_⟩
    · intro m hm
      obtain ⟨n, hn, rfl⟩ := List.mem_map.mp hm
      have := hclear n hn
      rw [hbs, ← hsp] at this
      unfold ranges_overlap at this ⊢
      omega
    · intro a' h1 h2 hfree
      obtain ⟨x, hx, hov⟩ := search_no_skip L s.mblk_head _ (spec_block_size size)
        L.heap (by omega) (by omega) fuel L.heap a hsearch (fun a' h1 h2 => by omega)
        a' h1 h2
      exact hfree x.data (List.mem_map_of_mem (fun n => n.data) hx) hov

/-- Claim C19: the search skips no usable position.  In every state, when `alloc(size)`
returns the non-null address `a`, no address `a'` with `heap ≤ a' < a` is usable: the
range `[a', a' + block_size)` overlaps a live block, where `block_size` is the exact
sum `data_size + sizeof(MBLK) + sizeof(ListNode)` for the padded `data_size`; for a
positive `int` request this is the specification's
`round_up_4(size) + sizeof(MBLK) + sizeof(ListNode)`. -/
theorem alloc_skips_no_usable_address (L : Layout) (fuel : Nat) (s s' : State)
    (size a : Int) (h : alloc L fuel s size = some (some a, s')) :
    (∀ a', L.heap ≤ a' → a' < a →
      ¬ free_at s.dir a' (pad_data_size size + sizeofMBLK + sizeofListNode)) ∧
    (0 < size → size ≤ INT_MAX →
      ∀ a', L.heap ≤ a' → a' < a → ¬ free_at s.dir a' (spec_block_size size)) := by
  rcases alloc_some L fuel s s' size (some a) h with
    ⟨hr, -⟩ | ⟨b, hr, hpos, -, hsearch, -⟩
  · cases hr
  · cases hr
    have hle := block_size_le (pad_data_size size) hpos
    have key : ∀ a', L.heap ≤ a' → a' < a →
        ¬ free_at s.dir a' (pad_data_size size + sizeofMBLK + sizeofListNode) := by
      intro a' h1 h2 hfree
      unfold sizeofMBLK sizeofListNode at hfree
      obtain ⟨x, hx, hov⟩ := search_no_skip L s.mblk_head _ (pad_data_size size + 16)
        L.heap (by omega) hle fuel L.heap a hsearch (fun a' h1 h2 => by omega) a' h1 h2
      apply hfree x.data (List.mem_map_of_mem (fun n => n.data) hx)
      simpa [add_assoc] using hov
    refine ⟨key, ?_⟩
    intro hsize hmax
    unfold spec_block_size
    rw [← pad_data_size_of_pos size hsize hmax hpos]
    exact key

/-- Claim C19 at work: `alloc(8)` after `heap_init(); alloc(4);` returns `heap + 20`. -/
theorem alloc_skips_no_usable_address_witness :
    (∀ a', L64.heap ≤ a' → a' < 4116 →
      ¬ free_at held1.dir a' (pad_data_size 8 + sizeofMBLK + sizeofListNode)) ∧
    ((0 : Int) < 8 → (8 : Int) ≤ INT_MAX →
      ∀ a', L64.heap ≤ a' → a' < 4116 → ¬ free_at held1.dir a' (spec_block_size 8)) :=
  alloc_skips_no_usable_address L64 2 held1 (register held1 4116 8 24) 8 4116 rfl

/-- The address the search returns is its start or the end of a block of the list. -/
theorem search_result_origin (L : Layout) (head : List ListNode) (bs : Int) (fuel : Nat)
    (addr a : Int) (h : search L head bs fuel addr = some (some a)) :
    a = addr ∨ ∃ n ∈ head, a = n.data.addr + n.data.len := by
  have hscan : ∀ (l : List ListNode) (c c1 : Int), scan L bs c l = Pass.moved c1 →
      ∃ n ∈ l, c1 = n.data.addr + n.data.len := by
    intro l c c1
    induction l with
    | nil => simp [scan]
    | cons t next ih =>
      simp only [scan]
      split_ifs with hc hfull
      · simp
      · intro h
        simp only [Pass.moved.injEq] at h
        exact ⟨t, List.mem_cons_self _ _, h.symm⟩
      · intro h
        obtain ⟨n, hn, e⟩ := ih h
        exact ⟨n, List.mem_cons_of_mem _ hn, e⟩
  induction fuel generalizing addr with
  | zero => simp [search] at h
  | succ k ih =>
    simp only [search] at h
    split at h
    · simp only [Option.some.injEq] at h
      exact Or.inl h.symm
    · simp at h
    · rename_i a1 hs
      rcases ih a1 h with e | e
      · right; rw [e]; exact hscan head addr a1 hs
      · exact Or.inr e

/-- In every state of an execution the offset from `heap` and the length of each live
block are multiples of 4. -/
theorem run_aligned (L : Layout) (ret : List Int) (s : State) (h : Run L ret s) :
    ∀ n ∈ s.mblk_head, (n.data.addr - L.heap) % 4 = 0 ∧ n.data.len % 4 = 0 := by
  induction h with
  | init s => simp [heap_init]
  | alloc_step fuel data_size r hrun hmin hmax halloc ih =>
    rename_i ret s s'
    rcases alloc_some L fuel s s' data_size r halloc with
      ⟨hr, hs⟩ | ⟨a, hr, hpos, hle, hsearch, hs⟩
    · subst hs; exact ih
    · subst hr
      have hbs := block_size_mod4 _ (pad_data_size_mod4 data_size)
      have ha : (a - L.heap) % 4 = 0 := by
        rcases search_result_origin L s.mblk_head _ fuel L.heap a hsearch with e | ⟨n, hn, e⟩
        · omega
        · have := ih n hn
          omega
      rw [hs, register_mblk_head]
      intro n hn
      rcases List.mem_append.mp hn with hn | hn
      · exact ih n hn
      · simp only [List.mem_singleton] at hn
        subst hn
        exact ⟨ha, hbs⟩
  | mfree_step ptr hrun ih =>
    rename_i ret s
    rw [mfree_mblk_head]
    have hsub := List.eraseP_sublist (p := fun n => decide (ptr = n.data.addr)) s.mblk_head
    exact fun n hn => ih n (hsub.subset hn)

/-- Claim C20: word alignment.  In every state reachable from `heap_init()` each live
block's offset from `heap` and each live block's length are multiples of 4; and every
address a call of `alloc` in such a state returns, as well as the places
`address + data_size` of the descriptor and `address + data_size + sizeof(MBLK)` of
the node, are at offsets from `heap` that are multiples of 4. -/
theorem word_alignment (L : Layout) (s : State) (hreach : Reachable L s) :
    (∀ m ∈ s.dir, (m.addr - L.heap) % 4 = 0 ∧ m.len % 4 = 0) ∧
    ∀ (fuel : Nat) (size a : Int) (s' : State),
      alloc L fuel s size = some (some a, s') →
        (a - L.heap) % 4 = 0 ∧ (a + pad_data_size size - L.heap) % 4 = 0 ∧
          (a + pad_data_size size + sizeofMBLK - L.heap) % 4 = 0 := by
  obtain ⟨ret, hrun⟩ := hreach
  have hal := run_aligned L ret s hrun
  constructor
  · intro m hm
    obtain ⟨n, hn, rfl⟩ := List.mem_map.mp hm
    exact hal n hn
  · intro fuel size a s' h
    rcases alloc_some L fuel s s' size (some a) h with
      ⟨hr, -⟩ | ⟨b, hr, -, -, hsearch, -⟩
    · cases hr
    · cases hr
      have hmod := pad_data_size_mod4 size
      have ha : (a - L.heap) % 4 = 0 := by
        rcases search_result_origin L s.mblk_head _ fuel L.heap a hsearch with e | ⟨n, hn, e⟩
        · omega
        · have := hal n hn
          omega
      unfold sizeofMBLK
      omega

/-- Claim C20 at work: the state after `heap_init(); alloc(4); alloc(4);`. -/
theorem word_alignment_witness :
    (∀ m ∈ held2.dir, (m.addr - L64.heap) % 4 = 0 ∧ m.len % 4 = 0) ∧
    ∀ (fuel : Nat) (size a : Int) (s' : State),
      alloc L64 fuel held2 size = some (some a, s') →
        (a - L64.heap) % 4 = 0 ∧ (a + pad_data_size size - L64.heap) % 4 = 0 ∧
          (a + pad_data_size size + sizeofMBLK - L64.heap) % 4 = 0 :=
  word_alignment L64 held2 ⟨_, run_held2⟩

end Malloc
